import Mathlib

/-!
Verification of the inventory reconciliation and consumption-inference
pipeline of the Smart-Fridge-System repository, shallowly embedded from
`inventory_manager.py`.  Python floats are modelled as rationals,
timestamps (`datetime`) as rationals counting seconds, dicts as
association lists (for the key→item maps of the differ) or as functions
`String → Option Pattern` (for the in-memory `consumption_patterns`
table).
-/

namespace SmartFridge

/-- An inventory item as produced by the vision parser / stored per user:
`name` and `category` are required, `quantity` is a free-form string that
may be missing (Python `item.get('quantity', '1')`). -/
structure Item where
  name : String
  category : String
  quantity : Option String
  deriving Repr, DecidableEq

/-- Identity key of an item: `(lowercase(name), lowercase(category))`. -/
abbrev Key := String × String

/-- Python `str.lower()` (ASCII case folding).  This is extensionally
`String.toLower` — see `lowerStr_eq_toLower` — written structurally so
that terms reduce (`String.toLower` recurses on byte positions). -/
def lowerStr (s : String) : String := ⟨s.data.map Char.toLower⟩

/-- The key expression `(item['name'].lower(), item['category'].lower())`. -/
def ikey (it : Item) : Key := (lowerStr it.name, lowerStr it.category)

/-! ### Quantity normalizer (`_extract_quantity`, inventory_manager.py lines 65-75)

The Python body is
`re.search(r'(\d+\.?\d*)', str(quantity_str))` followed by
`float(match.group(1)) if match else 1.0`, guarded by
`if not quantity_str: return 1.0` and a broad `except: return 1.0`.
The regex match always yields a string `float` accepts, so the `except`
arm is unreachable for string inputs; the embedding is total. -/

/-- Value of a list of decimal digit characters (most significant first). -/
def digitsVal (l : List Char) : ℕ :=
  l.foldl (fun a c => a * 10 + (c.toNat - 48)) 0

/-- The (leftmost, greedy) match of the regex `\d+\.?\d*` starting at the
head of `l`, which is assumed to be a digit: a maximal digit run, then an
optional dot followed by a maximal digit run. -/
def matchNum (l : List Char) : List Char :=
  let d1 := l.takeWhile Char.isDigit
  let r1 := l.dropWhile Char.isDigit
  match r1 with
  | '.' :: r2 => d1 ++ '.' :: r2.takeWhile Char.isDigit
  | _ => d1

/-- Leftmost match of `\d+\.?\d*` in the character list, if any (a match
must begin with a digit, so the search scans to the first digit). -/
def firstNum : List Char → Option (List Char)
  | [] => none
  | c :: rest => if c.isDigit then some (matchNum (c :: rest)) else firstNum rest

/-- Python `float` applied to a matched numeral `digits(.digits*)?`
(note `float "2." = 2.0`). -/
def parseFloat (m : List Char) : ℚ :=
  let ip := m.takeWhile Char.isDigit
  let rest := m.dropWhile Char.isDigit
  match rest with
  | '.' :: fp => (digitsVal ip : ℚ) + (digitsVal fp : ℚ) / (10 ^ fp.length)
  | _ => (digitsVal ip : ℚ)

/-- `_extract_quantity`: the argument is `Option String` so that the
Python call `_extract_quantity(None)` is representable; `none` and the
empty string are falsy (`if not quantity_str`). -/
def extract_quantity (q : Option String) : ℚ :=
  match q with
  | none => 1
  | some s =>
    if s.data = [] then 1
    else
      match firstNum s.data with
      | none => 1
      | some m => parseFloat m

/-- Normalized quantity of an item: `_extract_quantity(item.get('quantity', '1'))`. -/
def qtyOf (it : Item) : ℚ := extract_quantity (some (it.quantity.getD "1"))

/-! ### Inventory differ (`_compute_inventory_diff`, lines 26-63) -/

/-- A `changed` bucket entry: the new item (`new_item.copy()`) together
with the `quantity_diff` field attached to the copy. -/
structure ChangedItem where
  item : Item
  quantity_diff : ℚ
  deriving Repr, DecidableEq

/-- The four-bucket result of `_compute_inventory_diff`. -/
structure DiffResult where
  added : List Item
  removed : List Item
  changed : List ChangedItem
  unchanged : List Item
  deriving Repr, DecidableEq

/-- A Python dict keyed by `Key`, as an association list in first-insertion
order with unique keys. -/
abbrev DMap := List (Key × Item)

/-- Dict assignment `m[k] = v`: replace the value in place if the key is
present (Python dicts keep first-insertion order), else append. -/
def dinsert : DMap → Key → Item → DMap
  | [], k, v => [(k, v)]
  | kv :: rest, k, v => if kv.1 = k then (k, v) :: rest else kv :: dinsert rest k v

/-- Dict lookup `m[k]` (first entry with the key; entries are unique). -/
def dlookup : DMap → Key → Option Item
  | [], _ => none
  | kv :: rest, k => if kv.1 = k then some kv.2 else dlookup rest k

/-- The dict comprehension
`{(item['name'].lower(), item['category'].lower()): item for item in l}`:
left-to-right insertion, so a later duplicate key overwrites an earlier
one (last-write-wins). -/
def buildItems (l : List Item) : DMap :=
  l.foldl (fun m it => dinsert m (ikey it) it) []

/-- `_compute_inventory_diff`: classify every identity key of the two
snapshots into added / removed / changed / unchanged.  The source iterates
over Python `set` differences and intersections, whose order is
unspecified; the embedding iterates in dict order, which realizes the same
bucket membership. -/
def compute_inventory_diff (old_inventory new_inventory : List Item) : DiffResult :=
  let old_items := buildItems old_inventory
  let new_items := buildItems new_inventory
  let added := (new_items.filter (fun kv => (dlookup old_items kv.1).isNone)).map (·.2)
  let removed := (old_items.filter (fun kv => (dlookup new_items kv.1).isNone)).map (·.2)
  let pairs := old_items.filterMap (fun kv => (dlookup new_items kv.1).map (fun ni => (kv.2, ni)))
  let changed := pairs.filterMap (fun p =>
    let oq := qtyOf p.1
    let nq := qtyOf p.2
    if oq ≠ nq then some (⟨p.2, nq - oq⟩ : ChangedItem) else none)
  let unchanged := pairs.filterMap (fun p =>
    if qtyOf p.1 = qtyOf p.2 then some p.2 else none)
  ⟨added, removed, changed, unchanged⟩

/-- The latest item of the snapshot carrying a given identity key, if
any.  (This is the spec's phrase "the item that appears latest in that
snapshot", written directly, to be compared with the dict built by the
source.) -/
def lastWithKey : List Item → Key → Option Item
  | [], _ => none
  | it :: rest, k =>
    match lastWithKey rest k with
    | some x => some x
    | none => if ikey it = k then some it else none

/-- Number of diff buckets whose key set contains `k` (each bucket counted
once; a key can occur at most once inside a bucket because the buckets are
built from dicts). -/
def bucketCount (d : DiffResult) (k : Key) : ℕ :=
  (if k ∈ d.added.map ikey then 1 else 0) +
    (if k ∈ d.removed.map ikey then 1 else 0) +
    (if k ∈ d.changed.map (fun c => ikey c.item) then 1 else 0) +
    (if k ∈ d.unchanged.map ikey then 1 else 0)

/-! ### Consumption tracker (`_update_consumption_patterns`, lines 77-132)

The pattern table `self.consumption_patterns` is a dict keyed by
lowercase ingredient name; history record actions are the Python strings
`'consumed'` and `'partial_consumed'` (constructors `consumed` /
`partConsumed` here); a record's `quantity` is the raw quantity string
for full removals and the float `abs(quantity_diff)` for reductions.
`datetime.now()` is passed in explicitly as `now`. -/

/-- History record action (`'consumed'` / `'partial_consumed'`). -/
inductive HAction
  | consumed
  | partConsumed
  deriving Repr, DecidableEq

/-- A history record's `quantity` value: raw string (full removal,
`item.get('quantity', '1')`) or numeric (`abs(quantity_diff)`). -/
inductive HQty
  | raw (s : String)
  | num (q : ℚ)
  deriving Repr, DecidableEq

/-- One entry of a pattern's `history` list. -/
structure HistoryRecord where
  timestamp : ℚ
  action : HAction
  quantity : HQty
  deriving Repr, DecidableEq

/-- A value of `self.consumption_patterns`. -/
structure Pattern where
  last_consumed : ℚ
  consumption_rate : ℚ
  history : List HistoryRecord
  deriving Repr, DecidableEq

/-- The pattern table, keyed by lowercase ingredient name. -/
def PTable := String → Option Pattern

/-- Dict assignment on the pattern table. -/
def tset (t : PTable) (n : String) (p : Pattern) : PTable :=
  fun m => if m = n then some p else t m

/-- The dict literal `{'last_consumed': timestamp, 'consumption_rate': 0,
'history': []}` created when an ingredient is first tracked. -/
def freshPattern (now : ℚ) : Pattern := ⟨now, 0, []⟩

/-- The record appended for a fully removed item (lines 92-96). -/
def consumeRecord (now : ℚ) (it : Item) : HistoryRecord :=
  ⟨now, .consumed, .raw (it.quantity.getD "1")⟩

/-- The record appended for a quantity reduction (lines 111-115). -/
def partRecord (now : ℚ) (c : ChangedItem) : HistoryRecord :=
  ⟨now, .partConsumed, .num |c.quantity_diff|⟩

/-- Loop body for `diff['removed']` (lines 82-97): create the pattern
entry if absent, append a `consumed` record, set `last_consumed`. -/
def trackRemoved (now : ℚ) (t : PTable) (it : Item) : PTable :=
  let n := lowerStr it.name
  let p := (t n).getD (freshPattern now)
  tset t n { p with history := p.history ++ [consumeRecord now it], last_consumed := now }

/-- Loop body for `diff['changed']` (lines 100-116): only reductions
(`quantity_diff < 0`) are tracked; increases leave the table untouched.
The identical duplicated block in `save_items` (lines 233-253) is also
this function. -/
def trackChanged (now : ℚ) (t : PTable) (c : ChangedItem) : PTable :=
  if c.quantity_diff < 0 then
    let n := lowerStr c.item.name
    let p := (t n).getD (freshPattern now)
    tset t n { p with history := p.history ++ [partRecord now c], last_consumed := now }
  else t

/-- Successive differences `history[i].timestamp - history[i-1].timestamp`
in stored order (lines 122-125). -/
def gaps : List HistoryRecord → List ℚ
  | [] => []
  | [_] => []
  | a :: b :: rest => (b.timestamp - a.timestamp) :: gaps (b :: rest)

/-- The `time_diffs` list: only strictly positive gaps are kept (line 126). -/
def posGaps (h : List HistoryRecord) : List ℚ :=
  (gaps h).filter (fun d => decide (0 < d))

/-- Rate recomputation for one pattern (lines 119-132): with at least two
history records and a nonempty positive-gap list, set
`consumption_rate = 24 / (avg_seconds / 3600)`; otherwise leave the
pattern unchanged. -/
def recomputeRate (p : Pattern) : Pattern :=
  if 2 ≤ p.history.length then
    let tds := posGaps p.history
    if tds = [] then p
    else
      let avgHours := tds.sum / (tds.length : ℚ) / 3600
      if 0 < avgHours then { p with consumption_rate := 24 / avgHours } else p
  else p

/-- The two append loops of `_update_consumption_patterns` (removed items
first, then changed items), before the rate loop. -/
def appendPhase (t : PTable) (d : DiffResult) (now : ℚ) : PTable :=
  d.changed.foldl (trackChanged now) (d.removed.foldl (trackRemoved now) t)

/-- `_update_consumption_patterns`: appends, then rate recomputation over
every tracked ingredient.  The rate loop reads only the entry it rewrites,
so iterating the dict is a pointwise map. -/
def update_consumption_patterns (t : PTable) (d : DiffResult) (now : ℚ) : PTable :=
  fun n => ((appendPhase t d now) n).map recomputeRate

/-- Effect of one `save_items` call (lines 134-262) on the in-memory
pattern table, on the successful path: compute the diff of the two
snapshots, run `_update_consumption_patterns` (which captures its own
`datetime.now()`, here `tUpd`), then run the duplicated changed-item
tracking block of lines 233-253 with the timestamp captured at line 146
(here `tSave`).  The database writes in between do not touch the table. -/
def save_items_tracking (t : PTable) (old_inventory new_items : List Item)
    (tSave tUpd : ℚ) : PTable :=
  let d := compute_inventory_diff old_inventory new_items
  let t1 := update_consumption_patterns t d tUpd
  d.changed.foldl (trackChanged tSave) t1

/-- History of an ingredient in a table (`[]` when untracked). -/
def historyAt (t : PTable) (n : String) : List HistoryRecord :=
  match t n with
  | some p => p.history
  | none => []

/-- Last-consumed timestamp of an ingredient, when tracked. -/
def lastConsumedAt (t : PTable) (n : String) : Option ℚ :=
  (t n).map (·.last_consumed)

/-- Consumption rate of an ingredient, when tracked. -/
def rateAt (t : PTable) (n : String) : Option ℚ :=
  (t n).map (·.consumption_rate)

/-! ### Recommendation ranker (`_get_smart_recommendations`, lines 1138-1208)

The aggregation over `consumption_history` (external persistence) hands
the function a list of groups, one per distinct `(item_name, category)`
in the 7-day window, each with a count and the max (`last_consumed`)
timestamp. -/

/-- One group produced by the `$group` aggregation stage. -/
structure HistGroup where
  name : String
  category : String
  count : ℕ
  last_consumed : Option ℚ
  deriving Repr, DecidableEq

/-- Urgency tier of a recommendation. -/
inductive Urgency
  | High
  | Medium
  | Low
  deriving Repr, DecidableEq

/-- A grocery recommendation record (lines 1196-1203). -/
structure Recommendation where
  name : String
  category : String
  reason : String
  urgency : Urgency
  last_consumed : Option ℚ
  consumption_rate : ℚ
  deriving Repr, DecidableEq

/-- Identity key of a group, matching the inventory map key. -/
def gkey (g : HistGroup) : Key := (lowerStr g.name, lowerStr g.category)

/-- `pattern.get('consumption_rate', 0)` after
`self.consumption_patterns.get(item_name.lower(), {})`. -/
def rateOf (t : PTable) (n : String) : ℚ :=
  match t n with
  | some p => p.consumption_rate
  | none => 0

/-- `(datetime.now() - item['last_consumed']).days if item['last_consumed'] else 0`:
`timedelta.days` is the floor of the difference in whole days. -/
def daysSince (now : ℚ) (lc : Option ℚ) : ℤ :=
  match lc with
  | some tc => ⌊(now - tc) / 86400⌋
  | none => 0

/-- Python `f"{q:.1f}"` for the nonnegative rates this code formats:
round to one decimal and print. -/
def fmt1 (q : ℚ) : String :=
  let n := round (q * 10)
  toString (n / 10) ++ "." ++ toString (n % 10)

/-- Urgency classification and record construction for one non-skipped
group (lines 1180-1203): High when the pattern rate exceeds `0.3`, else
Medium when the last consumption was under 3 days ago, else Low. -/
def classifyRec (t : PTable) (now : ℚ) (g : HistGroup) : Recommendation :=
  if 3/10 < rateOf t (lowerStr g.name) then
    ⟨g.name, g.category,
      "Frequently used (" ++ fmt1 (rateOf t (lowerStr g.name)) ++ "/day)",
      .High, g.last_consumed, rateOf t (lowerStr g.name)⟩
  else if daysSince now g.last_consumed < 3 then
    ⟨g.name, g.category, "Recently consumed", .Medium, g.last_consumed,
      rateOf t (lowerStr g.name)⟩
  else
    ⟨g.name, g.category, "Occasionally used", .Low, g.last_consumed,
      rateOf t (lowerStr g.name)⟩

/-- Per-group body of the recommendation loop (lines 1166-1203): skip the
group (`continue`) when the item is present in the inventory map with
normalized quantity above `0.5`, otherwise classify and append. -/
def emitRec (t : PTable) (invMap : DMap) (now : ℚ) (g : HistGroup) : Option Recommendation :=
  match dlookup invMap (gkey g) with
  | some it => if (1 : ℚ)/2 < qtyOf it then none else some (classifyRec t now g)
  | none => some (classifyRec t now g)

/-- Sort key tier: `0 if High else 1 if Medium else 2` (line 1206). -/
def urgNum : Urgency → ℕ
  | .High => 0
  | .Medium => 1
  | .Low => 2

/-- The order realized by `sorted(recommendations, key=lambda x:
(urgNum, -consumption_rate))`: lexicographic on the key tuple. -/
def recLE (a b : Recommendation) : Prop :=
  urgNum a.urgency < urgNum b.urgency ∨
    (urgNum a.urgency = urgNum b.urgency ∧ b.consumption_rate ≤ a.consumption_rate)

instance : DecidableRel recLE := fun a b =>
  inferInstanceAs (Decidable (urgNum a.urgency < urgNum b.urgency ∨
    (urgNum a.urgency = urgNum b.urgency ∧ b.consumption_rate ≤ a.consumption_rate)))

/-- Python's `sorted` is a stable comparison sort by the key tuple;
insertion sort with the same total preorder is also stable, so it
computes the same list. -/
def rankSort (l : List Recommendation) : List Recommendation :=
  List.insertionSort recLE l

/-- `_get_smart_recommendations`: per-group emission, then the final sort
(lines 1205-1208). -/
def get_smart_recommendations (t : PTable) (current_inventory : List Item)
    (gs : List HistGroup) (now : ℚ) : List Recommendation :=
  rankSort (gs.filterMap (emitRec t (buildItems current_inventory) now))

/-! ### Concrete fixtures used by witness theorems and concrete conjuncts -/

/-- Candidate A of the spec's ranking example: rate `0.5`, classified High. -/
def recA : Recommendation :=
  ⟨"A", "cat", "Frequently used (0.5/day)", .High, none, (1 : ℚ)/2⟩

/-- Candidate B of the spec's ranking example: rate `0.1`, `days_since = 1`, Medium. -/
def recB : Recommendation :=
  ⟨"B", "cat", "Recently consumed", .Medium, none, (1 : ℚ)/10⟩

/-- Candidate C of the spec's ranking example: rate `0.1`, `days_since = 10`, Low. -/
def recC : Recommendation :=
  ⟨"C", "cat", "Occasionally used", .Low, none, (1 : ℚ)/10⟩

/-- Inventory item "Milk" with normalized quantity `0.6` (suppression case). -/
def item06 : Item := ⟨"Milk", "Dairy", some "0.6"⟩

/-- Inventory item "Milk" with normalized quantity `0.4` (inclusion case). -/
def item04 : Item := ⟨"Milk", "Dairy", some "0.4"⟩

/-- History group for "Milk" consumed at time 0, in the 7-day window. -/
def gMilk : HistGroup := ⟨"Milk", "Dairy", 2, some 0⟩

/-- The empty pattern table. -/
def emptyTable : PTable := fun _ => none

/-- Old snapshot item: three units of milk. -/
def milkOld : Item := ⟨"Milk", "Dairy", some "3"⟩

/-- New snapshot item: one unit of milk (a reduction of 2). -/
def milkNew : Item := ⟨"Milk", "Dairy", some "1"⟩

/-- The changed-bucket entry the differ produces for `milkOld → milkNew`. -/
def milkChanged : ChangedItem := ⟨milkNew, qtyOf milkNew - qtyOf milkOld⟩

/-- A diff with a single removed item, as fed to the pattern update. -/
def removedMilkDiff : DiffResult := ⟨[], [milkOld], [], []⟩

/-- A history with one consumption per day: events at `t = 0`, `t + 86400`
and `t + 172800` seconds. -/
def dailyHist : List HistoryRecord :=
  [⟨0, .consumed, .raw "1"⟩, ⟨86400, .consumed, .raw "1"⟩,
    ⟨172800, .consumed, .raw "1"⟩]

/-- A pattern holding the daily-consumption history. -/
def dailyPattern : Pattern := ⟨172800, 0, dailyHist⟩

/-- A pattern with a single history record (fewer than two). -/
def oneRecPattern : Pattern := ⟨7, 0, [⟨0, .consumed, .raw "1"⟩]⟩

/-- A pattern whose two records share one timestamp (no positive gap). -/
def sameTimePattern : Pattern :=
  ⟨5, 3, [⟨5, .consumed, .raw "1"⟩, ⟨5, .consumed, .raw "1"⟩]⟩

/-- The pattern created for "milk" by updating the empty table with
`removedMilkDiff` at time 5. -/
def milkAfterUpdate : Pattern := ⟨5, 0, [⟨5, .consumed, .raw "3"⟩]⟩

/-! ### Helper lemmas -/

lemma urgency_eq_of_urgNum_eq : ∀ u v : Urgency, urgNum u = urgNum v → u = v := by
  intro u v h
  cases u <;> cases v <;> simp_all [urgNum]

instance : IsTotal Recommendation recLE :=
  ⟨fun a b => by
    unfold recLE
    rcases Nat.lt_trichotomy (urgNum a.urgency) (urgNum b.urgency) with h | h | h
    · exact Or.inl (Or.inl h)
    · rcases le_total b.consumption_rate a.consumption_rate with hr | hr
      · exact Or.inl (Or.inr ⟨h, hr⟩)
      · exact Or.inr (Or.inr ⟨h.symm, hr⟩)
    · exact Or.inr (Or.inl h)⟩

instance : IsTrans Recommendation recLE :=
  ⟨fun a b c hab hbc => by
    unfold recLE at hab hbc ⊢
    rcases hab with h1 | ⟨h1, r1⟩ <;> rcases hbc with h2 | ⟨h2, r2⟩
    · exact Or.inl (h1.trans h2)
    · exact Or.inl (h2 ▸ h1)
    · exact Or.inl (h1 ▸ h2)
    · exact Or.inr ⟨h1.trans h2, r2.trans r1⟩⟩

lemma firstNum_eq_none (l : List Char) (h : ∀ c ∈ l, ¬ c.isDigit) :
    firstNum l = none := by
  induction l with
  | nil => rfl
  | cons c rest ih =>
    have hc : ¬ c.isDigit := h c (List.mem_cons_self c rest)
    simp only [firstNum, if_neg hc]
    exact ih fun d hd => h d (List.mem_cons_of_mem c hd)

lemma trackChanged_of_pos (now : ℚ) (t : PTable) (c : ChangedItem)
    (h : 0 < c.quantity_diff) : trackChanged now t c = t := by
  unfold trackChanged
  rw [if_neg (not_lt.mpr (le_of_lt h))]

lemma extract_quantity_one_dot (s : String) (a b : Char)
    (hne : ¬ s.data = []) (h1 : firstNum s.data = some [a, '.', b])
    (ha : a.isDigit = true) :
    extract_quantity (some s) = (digitsVal [a] : ℚ) + (digitsVal [b] : ℚ) / ((10 : ℕ) : ℚ) := by
  show (if s.data = [] then (1 : ℚ)
    else match firstNum s.data with
      | none => 1
      | some m => parseFloat m) = _
  rw [if_neg hne, h1]
  show parseFloat [a, '.', b] = _
  unfold parseFloat
  have ht : [a, '.', b].takeWhile Char.isDigit = [a] := by
    simp [List.takeWhile, ha]
  have hd : [a, '.', b].dropWhile Char.isDigit = ['.', b] := by
    simp [List.dropWhile, ha]
  rw [ht, hd]
  show (digitsVal [a] : ℚ) + (digitsVal [b] : ℚ) / 10 ^ ([b] : List Char).length = _
  norm_num

lemma qtyOf_item06 : qtyOf item06 = 3/5 := by
  have h := extract_quantity_one_dot "0.6" '0' '6' (by decide) (by decide) (by decide)
  rw [show qtyOf item06 = extract_quantity (some "0.6") from rfl, h,
    show digitsVal ['0'] = 0 from by decide, show digitsVal ['6'] = 6 from by decide]
  norm_num

lemma qtyOf_item04 : qtyOf item04 = 2/5 := by
  have h := extract_quantity_one_dot "0.4" '0' '4' (by decide) (by decide) (by decide)
  rw [show qtyOf item04 = extract_quantity (some "0.4") from rfl, h,
    show digitsVal ['0'] = 0 from by decide, show digitsVal ['4'] = 4 from by decide]
  norm_num

lemma lowerStr_eq_toLower (s : String) : lowerStr s = s.toLower := by
  show String.mk (s.data.map Char.toLower) = s.toLower
  rw [String.toLower, String.map_eq]

lemma emitRec_lookup_none {invMap : DMap} {g : HistGroup} (t : PTable) (now : ℚ)
    (h : dlookup invMap (gkey g) = none) :
    emitRec t invMap now g = some (classifyRec t now g) := by
  unfold emitRec
  rw [h]

lemma emitRec_lookup_some {invMap : DMap} {g : HistGroup} {it : Item} (t : PTable)
    (now : ℚ) (h : dlookup invMap (gkey g) = some it) :
    emitRec t invMap now g =
      if (1 : ℚ)/2 < qtyOf it then none else some (classifyRec t now g) := by
  unfold emitRec
  rw [h]

lemma emitRec_eq_none_iff (t : PTable) (invMap : DMap) (now : ℚ) (g : HistGroup) :
    emitRec t invMap now g = none ↔
      ∃ it, dlookup invMap (gkey g) = some it ∧ (1 : ℚ)/2 < qtyOf it := by
  unfold emitRec
  rcases hl : dlookup invMap (gkey g) with _ | it
  · simp
  · by_cases hq : (1 : ℚ)/2 < qtyOf it
    · simp [hq]
    · simp only [if_neg hq]
      constructor
      · intro h
        cases h
      · rintro ⟨it', hit', hq'⟩
        rw [← Option.some_inj.mp hit'] at hq'
        exact absurd hq' hq

lemma mem_get_smart_recommendations (t : PTable) (inv : List Item)
    (gs : List HistGroup) (now : ℚ) (r : Recommendation) :
    r ∈ get_smart_recommendations t inv gs now ↔
      ∃ g ∈ gs, emitRec t (buildItems inv) now g = some r := by
  unfold get_smart_recommendations rankSort
  rw [(List.perm_insertionSort recLE _).mem_iff]
  simp [List.mem_filterMap]

lemma trackRemoved_apply (now : ℚ) (t : PTable) (it : Item) (m : String) :
    trackRemoved now t it m =
      if m = lowerStr it.name then
        some { ((t m).getD (freshPattern now)) with
          history := ((t m).getD (freshPattern now)).history ++ [consumeRecord now it],
          last_consumed := now }
      else t m := by
  by_cases h : m = lowerStr it.name
  · subst h
    simp [trackRemoved, tset]
  · simp [trackRemoved, tset, h]

lemma trackChanged_apply (now : ℚ) (t : PTable) (c : ChangedItem) (m : String) :
    trackChanged now t c m =
      if c.quantity_diff < 0 ∧ m = lowerStr c.item.name then
        some { ((t m).getD (freshPattern now)) with
          history := ((t m).getD (freshPattern now)).history ++ [partRecord now c],
          last_consumed := now }
      else t m := by
  by_cases hq : c.quantity_diff < 0
  · show (if c.quantity_diff < 0 then _ else t) m = _
    rw [if_pos hq]
    by_cases h : m = lowerStr c.item.name
    · subst h
      simp [tset, hq]
    · simp [tset, h, hq]
  · have ht : trackChanged now t c = t := by
      unfold trackChanged
      rw [if_neg hq]
    rw [ht, if_neg (fun hcon => hq hcon.1)]

lemma historyAt_trackRemoved (now : ℚ) (t : PTable) (it : Item) (m : String) :
    historyAt (trackRemoved now t it) m =
      if m = lowerStr it.name then historyAt t m ++ [consumeRecord now it]
      else historyAt t m := by
  unfold historyAt
  rw [trackRemoved_apply]
  by_cases h : m = lowerStr it.name
  · rw [if_pos h, if_pos h]
    cases htm : t m <;> rfl
  · rw [if_neg h, if_neg h]

lemma historyAt_trackChanged (now : ℚ) (t : PTable) (c : ChangedItem) (m : String) :
    historyAt (trackChanged now t c) m =
      if c.quantity_diff < 0 ∧ m = lowerStr c.item.name then
        historyAt t m ++ [partRecord now c]
      else historyAt t m := by
  unfold historyAt
  rw [trackChanged_apply]
  by_cases h : c.quantity_diff < 0 ∧ m = lowerStr c.item.name
  · rw [if_pos h, if_pos h]
    cases htm : t m <;> rfl
  · rw [if_neg h, if_neg h]

lemma lastConsumedAt_trackRemoved (now : ℚ) (t : PTable) (it : Item) (m : String) :
    lastConsumedAt (trackRemoved now t it) m =
      if m = lowerStr it.name then some now else lastConsumedAt t m := by
  unfold lastConsumedAt
  rw [trackRemoved_apply]
  by_cases h : m = lowerStr it.name
  · rw [if_pos h, if_pos h]
    rfl
  · rw [if_neg h, if_neg h]

lemma lastConsumedAt_trackChanged (now : ℚ) (t : PTable) (c : ChangedItem) (m : String) :
    lastConsumedAt (trackChanged now t c) m =
      if c.quantity_diff < 0 ∧ m = lowerStr c.item.name then some now
      else lastConsumedAt t m := by
  unfold lastConsumedAt
  rw [trackChanged_apply]
  by_cases h : c.quantity_diff < 0 ∧ m = lowerStr c.item.name
  · rw [if_pos h, if_pos h]
    rfl
  · rw [if_neg h, if_neg h]

lemma historyAt_foldl_trackRemoved (now : ℚ) (l : List Item) (t : PTable) (m : String) :
    historyAt (l.foldl (trackRemoved now) t) m =
      historyAt t m ++
        (l.filter (fun it => lowerStr it.name == m)).map (consumeRecord now) := by
  induction l generalizing t with
  | nil => simp
  | cons a l ih =>
    rw [List.foldl_cons, ih, historyAt_trackRemoved]
    by_cases h : m = lowerStr a.name
    · rw [if_pos h, List.filter_cons_of_pos (by simp [h])]
      simp [List.append_assoc]
    · rw [if_neg h, List.filter_cons_of_neg (by simp; exact fun e => h e.symm)]

lemma historyAt_foldl_trackChanged (now : ℚ) (l : List ChangedItem) (t : PTable)
    (m : String) :
    historyAt (l.foldl (trackChanged now) t) m =
      historyAt t m ++
        (l.filter (fun c => decide (c.quantity_diff < 0) &&
          (lowerStr c.item.name == m))).map (partRecord now) := by
  induction l generalizing t with
  | nil => simp
  | cons a l ih =>
    rw [List.foldl_cons, ih, historyAt_trackChanged]
    by_cases h : a.quantity_diff < 0 ∧ m = lowerStr a.item.name
    · rw [if_pos h, List.filter_cons_of_pos (by simp [h.1, h.2])]
      simp [List.append_assoc]
    · rw [if_neg h, List.filter_cons_of_neg ?_]
      simp only [Bool.and_eq_true, decide_eq_true_eq, beq_iff_eq]
      intro hcon
      exact h ⟨hcon.1, hcon.2.symm⟩

lemma lastConsumedAt_foldl_trackRemoved (now : ℚ) (l : List Item) (t : PTable)
    (m : String) :
    lastConsumedAt (l.foldl (trackRemoved now) t) m =
      if l.any (fun it => lowerStr it.name == m) then some now
      else lastConsumedAt t m := by
  induction l generalizing t with
  | nil => simp
  | cons a l ih =>
    rw [List.foldl_cons, ih, lastConsumedAt_trackRemoved, List.any_cons]
    by_cases h : m = lowerStr a.name
    · by_cases hl : l.any (fun it => lowerStr it.name == m)
      · simp [h, hl]
      · simp [h, hl]
    · have : (lowerStr a.name == m) = false := by
        simp
        exact fun e => h e.symm
      simp [this, h]

lemma lastConsumedAt_foldl_trackChanged (now : ℚ) (l : List ChangedItem) (t : PTable)
    (m : String) :
    lastConsumedAt (l.foldl (trackChanged now) t) m =
      if l.any (fun c => decide (c.quantity_diff < 0) && (lowerStr c.item.name == m))
      then some now
      else lastConsumedAt t m := by
  induction l generalizing t with
  | nil => simp
  | cons a l ih =>
    rw [List.foldl_cons, ih, lastConsumedAt_trackChanged, List.any_cons]
    by_cases h : a.quantity_diff < 0 ∧ m = lowerStr a.item.name
    · by_cases hl : l.any
          (fun c => decide (c.quantity_diff < 0) && (lowerStr c.item.name == m))
      · simp [h.1, h.2, hl]
      · simp [h.1, h.2, hl]
    · have hfalse : (decide (a.quantity_diff < 0) && (lowerStr a.item.name == m))
          = false := by
        simp only [Bool.and_eq_false_iff, decide_eq_false_iff_not, beq_eq_false_iff_ne]
        by_cases hq : a.quantity_diff < 0
        · right
          exact fun e => h ⟨hq, e.symm⟩
        · left
          exact hq
      simp [hfalse, h]

lemma recomputeRate_history (p : Pattern) : (recomputeRate p).history = p.history := by
  unfold recomputeRate
  dsimp only
  split_ifs <;> rfl

lemma recomputeRate_last (p : Pattern) :
    (recomputeRate p).last_consumed = p.last_consumed := by
  unfold recomputeRate
  dsimp only
  split_ifs <;> rfl

lemma historyAt_update (t : PTable) (d : DiffResult) (now : ℚ) (n : String) :
    historyAt (update_consumption_patterns t d now) n =
      historyAt (appendPhase t d now) n := by
  unfold historyAt update_consumption_patterns
  cases h : appendPhase t d now n
  · simp [h]
  · simp [h, recomputeRate_history]

lemma lastConsumedAt_update (t : PTable) (d : DiffResult) (now : ℚ) (n : String) :
    lastConsumedAt (update_consumption_patterns t d now) n =
      lastConsumedAt (appendPhase t d now) n := by
  unfold lastConsumedAt update_consumption_patterns
  cases h : appendPhase t d now n
  · simp [h]
  · simp [h, recomputeRate_last]

lemma historyAt_appendPhase (t : PTable) (d : DiffResult) (now : ℚ) (n : String) :
    historyAt (appendPhase t d now) n =
      historyAt t n
        ++ (d.removed.filter (fun it => lowerStr it.name == n)).map (consumeRecord now)
        ++ (d.changed.filter (fun c => decide (c.quantity_diff < 0) &&
            (lowerStr c.item.name == n))).map (partRecord now) := by
  unfold appendPhase
  rw [historyAt_foldl_trackChanged, historyAt_foldl_trackRemoved]

lemma lastConsumedAt_appendPhase (t : PTable) (d : DiffResult) (now : ℚ) (n : String) :
    lastConsumedAt (appendPhase t d now) n =
      if d.removed.any (fun it => lowerStr it.name == n) ∨
          d.changed.any (fun c => decide (c.quantity_diff < 0) &&
            (lowerStr c.item.name == n))
      then some now else lastConsumedAt t n := by
  unfold appendPhase
  rw [lastConsumedAt_foldl_trackChanged, lastConsumedAt_foldl_trackRemoved]
  by_cases h1 : d.changed.any (fun c => decide (c.quantity_diff < 0) &&
      (lowerStr c.item.name == n))
  · simp [h1]
  · by_cases h2 : d.removed.any (fun it => lowerStr it.name == n)
    · simp [h1, h2]
    · simp [h1, h2]

lemma foldl_trackRemoved_none (now : ℚ) (l : List Item) (t : PTable) (m : String)
    (h : (l.foldl (trackRemoved now) t) m = none) : t m = none := by
  induction l generalizing t with
  | nil => exact h
  | cons a l ih =>
    have h2 := ih (trackRemoved now t a) h
    rw [trackRemoved_apply] at h2
    by_cases hm : m = lowerStr a.name
    · rw [if_pos hm] at h2
      cases h2
    · rw [if_neg hm] at h2
      exact h2

lemma foldl_trackChanged_none (now : ℚ) (l : List ChangedItem) (t : PTable) (m : String)
    (h : (l.foldl (trackChanged now) t) m = none) : t m = none := by
  induction l generalizing t with
  | nil => exact h
  | cons a l ih =>
    have h2 := ih (trackChanged now t a) h
    rw [trackChanged_apply] at h2
    by_cases hm : a.quantity_diff < 0 ∧ m = lowerStr a.item.name
    · rw [if_pos hm] at h2
      cases h2
    · rw [if_neg hm] at h2
      exact h2

lemma rateAt_foldl_trackRemoved (now : ℚ) (l : List Item) (t : PTable) (m : String) :
    rateAt (l.foldl (trackRemoved now) t) m = rateAt t m ∨
      (t m = none ∧ rateAt (l.foldl (trackRemoved now) t) m = some 0) := by
  induction l generalizing t with
  | nil => exact Or.inl rfl
  | cons a l ih =>
    rw [List.foldl_cons]
    rcases ih (trackRemoved now t a) with h | ⟨hnone, h⟩
    · rw [h]
      unfold rateAt
      rw [trackRemoved_apply]
      by_cases hm : m = lowerStr a.name
      · rw [if_pos hm]
        cases htm : t m
        · exact Or.inr ⟨rfl, rfl⟩
        · exact Or.inl rfl
      · rw [if_neg hm]
        exact Or.inl rfl
    · rw [trackRemoved_apply] at hnone
      by_cases hm : m = lowerStr a.name
      · rw [if_pos hm] at hnone
        cases hnone
      · rw [if_neg hm] at hnone
        exact Or.inr ⟨hnone, h⟩

lemma rateAt_foldl_trackChanged (now : ℚ) (l : List ChangedItem) (t : PTable)
    (m : String) :
    rateAt (l.foldl (trackChanged now) t) m = rateAt t m ∨
      (t m = none ∧ rateAt (l.foldl (trackChanged now) t) m = some 0) := by
  induction l generalizing t with
  | nil => exact Or.inl rfl
  | cons a l ih =>
    rw [List.foldl_cons]
    rcases ih (trackChanged now t a) with h | ⟨hnone, h⟩
    · rw [h]
      unfold rateAt
      rw [trackChanged_apply]
      by_cases hm : a.quantity_diff < 0 ∧ m = lowerStr a.item.name
      · rw [if_pos hm]
        cases htm : t m
        · exact Or.inr ⟨rfl, rfl⟩
        · exact Or.inl rfl
      · rw [if_neg hm]
        exact Or.inl rfl
    · rw [trackChanged_apply] at hnone
      by_cases hm : a.quantity_diff < 0 ∧ m = lowerStr a.item.name
      · rw [if_pos hm] at hnone
        cases hnone
      · rw [if_neg hm] at hnone
        exact Or.inr ⟨hnone, h⟩

lemma rateAt_appendPhase (t : PTable) (d : DiffResult) (now : ℚ) (n : String) :
    rateAt (appendPhase t d now) n = rateAt t n ∨
      (t n = none ∧ rateAt (appendPhase t d now) n = some 0) := by
  unfold appendPhase
  rcases rateAt_foldl_trackChanged now d.changed (d.removed.foldl (trackRemoved now) t) n
    with h | ⟨hnone, h⟩
  · rcases rateAt_foldl_trackRemoved now d.removed t n with h2 | ⟨hn2, h2⟩
    · exact Or.inl (h.trans h2)
    · exact Or.inr ⟨hn2, h.trans h2⟩
  · exact Or.inr ⟨foldl_trackRemoved_none now d.removed t n hnone, h⟩

lemma gaps_const : ∀ (h : List HistoryRecord) (c : ℚ),
    (∀ r ∈ h, r.timestamp = c) → ∀ g ∈ gaps h, g = 0
  | [], _, _ => by simp [gaps]
  | [_], _, _ => by simp [gaps]
  | a :: b :: rest, c, hc => by
    intro g hg
    rw [show gaps (a :: b :: rest) =
      (b.timestamp - a.timestamp) :: gaps (b :: rest) from rfl] at hg
    rcases List.mem_cons.mp hg with h1 | h2
    · rw [h1, hc a (by simp), hc b (by simp)]
      ring
    · exact gaps_const (b :: rest) c (fun r hr => hc r (List.mem_cons_of_mem a hr)) g h2

lemma posGaps_of_const (h : List HistoryRecord) (c : ℚ)
    (hc : ∀ r ∈ h, r.timestamp = c) : posGaps h = [] := by
  unfold posGaps
  rw [List.filter_eq_nil_iff]
  intro g hg
  rw [gaps_const h c hc g hg]
  simp

lemma recomputeRate_of_posGaps_nil (p : Pattern) (h : posGaps p.history = []) :
    recomputeRate p = p := by
  simp [recomputeRate, h]

lemma recomputeRate_of_short (p : Pattern) (h : p.history.length < 2) :
    recomputeRate p = p := by
  unfold recomputeRate
  rw [if_neg (by omega)]

lemma posGaps_daily : posGaps dailyHist = [(86400 : ℚ) - 0, 172800 - 86400] := by
  unfold posGaps
  rw [show gaps dailyHist = [(86400 : ℚ) - 0, 172800 - 86400] from rfl,
    List.filter_cons_of_pos (by norm_num), List.filter_cons_of_pos (by norm_num)]
  rfl

lemma posGaps_sameTime : posGaps sameTimePattern.history = [] := by
  unfold posGaps
  rw [show gaps sameTimePattern.history = [(5 : ℚ) - 5] from rfl,
    List.filter_cons_of_neg (by norm_num)]
  rfl

lemma recomputeRate_formula (p : Pattern) (h2 : 2 ≤ p.history.length)
    (hne : posGaps p.history ≠ []) :
    (recomputeRate p).consumption_rate =
      86400 * (posGaps p.history).length / (posGaps p.history).sum := by
  have hpos : ∀ g ∈ posGaps p.history, 0 < g := by
    intro g hg
    have := List.of_mem_filter hg
    simpa using this
  have hsum : 0 < (posGaps p.history).sum := List.sum_pos _ hpos hne
  have hlen : 0 < ((posGaps p.history).length : ℚ) := by
    have := List.length_pos.mpr hne
    exact_mod_cast this
  unfold recomputeRate
  rw [if_pos h2]
  dsimp only
  rw [if_neg hne, if_pos (div_pos (div_pos hsum hlen) (by norm_num))]
  show 24 / ((posGaps p.history).sum / ((posGaps p.history).length : ℚ) / 3600) = _
  rw [div_div, div_div_eq_mul_div, eq_div_iff (ne_of_gt hsum)]
  field_simp
  ring

lemma rateZero_preserved (t : PTable) (d : DiffResult) (now : ℚ)
    (hinv : ∀ n p, t n = some p → p.history.length < 2 → p.consumption_rate = 0)
    (n : String) (p : Pattern)
    (hup : update_consumption_patterns t d now n = some p)
    (hlen : p.history.length < 2) : p.consumption_rate = 0 := by
  have hex : ∃ q, appendPhase t d now n = some q := by
    cases haa : appendPhase t d now n
    · rw [show update_consumption_patterns t d now n =
        (appendPhase t d now n).map recomputeRate from rfl, haa] at hup
      cases hup
    · exact ⟨_, rfl⟩
  obtain ⟨q, ha⟩ := hex
  have hpq : p = recomputeRate q := by
    rw [show update_consumption_patterns t d now n =
      (appendPhase t d now n).map recomputeRate from rfl, ha] at hup
    exact (Option.some_inj.mp hup).symm
  have hqlen : q.history.length < 2 := by
    rw [hpq, recomputeRate_history] at hlen
    exact hlen
  have hpq2 : p = q := by rw [hpq, recomputeRate_of_short q hqlen]
  subst hpq2
  have h1 : rateAt (appendPhase t d now) n = some p.consumption_rate := by
    unfold rateAt
    rw [ha]
    rfl
  rcases rateAt_appendPhase t d now n with h | ⟨hnone, h⟩
  · rw [h1] at h
    cases htn : t n with
    | none =>
      rw [show rateAt t n = none from by unfold rateAt; rw [htn]; rfl] at h
      cases h
    | some p0 =>
      have hrate : p.consumption_rate = p0.consumption_rate := by
        rw [show rateAt t n = some p0.consumption_rate from by
          unfold rateAt; rw [htn]; rfl] at h
        exact Option.some_inj.mp h
      have hh := historyAt_appendPhase t d now n
      rw [show historyAt (appendPhase t d now) n = p.history from by
          unfold historyAt; rw [ha],
        show historyAt t n = p0.history from by unfold historyAt; rw [htn]] at hh
      have hlen0 : p0.history.length < 2 := by
        have hle : p0.history.length ≤ p.history.length := by
          rw [hh]
          simp [List.length_append]
        omega
      rw [hrate]
      exact hinv n p0 htn hlen0
  · rw [h1] at h
    exact Option.some_inj.mp h

lemma dlookup_dinsert (m : DMap) (k : Key) (v : Item) (q : Key) :
    dlookup (dinsert m k v) q = if q = k then some v else dlookup m q := by
  induction m with
  | nil =>
    show (if k = q then some v else dlookup [] q) = _
    by_cases h : q = k
    · rw [if_pos h.symm, if_pos h]
    · rw [if_neg (fun e => h e.symm), if_neg h]
  | cons kv rest ih =>
    show dlookup (if kv.1 = k then (k, v) :: rest else kv :: dinsert rest k v) q = _
    by_cases h1 : kv.1 = k
    · rw [if_pos h1]
      show (if k = q then some v else dlookup rest q) = _
      by_cases h : q = k
      · rw [if_pos h.symm, if_pos h]
      · rw [if_neg (fun e => h e.symm), if_neg h]
        show _ = if kv.1 = q then some kv.2 else dlookup rest q
        rw [if_neg (show ¬ kv.1 = q from by rw [h1]; exact fun e => h e.symm)]
    · rw [if_neg h1]
      show (if kv.1 = q then some kv.2 else dlookup (dinsert rest k v) q) = _
      by_cases h2 : kv.1 = q
      · rw [if_pos h2]
        have hqk : ¬ q = k := fun e => h1 (by rw [h2, e])
        rw [if_neg hqk]
        show _ = if kv.1 = q then some kv.2 else dlookup rest q
        rw [if_pos h2]
      · rw [if_neg h2, ih]
        by_cases h : q = k
        · rw [if_pos h, if_pos h]
        · rw [if_neg h, if_neg h]
          show dlookup rest q = if kv.1 = q then some kv.2 else dlookup rest q
          rw [if_neg h2]

lemma mem_dinsert (m : DMap) (k : Key) (v : Item) (kv : Key × Item)
    (h : kv ∈ dinsert m k v) : kv ∈ m ∨ kv = (k, v) := by
  induction m with
  | nil => exact Or.inr (List.mem_singleton.mp h)
  | cons a rest ih =>
    by_cases h1 : a.1 = k
    · rw [show dinsert (a :: rest) k v = (k, v) :: rest from by
        show (if a.1 = k then _ else _) = _
        rw [if_pos h1]] at h
      rcases List.mem_cons.mp h with h2 | h2
      · exact Or.inr h2
      · exact Or.inl (List.mem_cons_of_mem a h2)
    · rw [show dinsert (a :: rest) k v = a :: dinsert rest k v from by
        show (if a.1 = k then _ else _) = _
        rw [if_neg h1]] at h
      rcases List.mem_cons.mp h with h2 | h2
      · exact Or.inl (h2 ▸ List.mem_cons_self a rest)
      · rcases ih h2 with h3 | h3
        · exact Or.inl (List.mem_cons_of_mem a h3)
        · exact Or.inr h3

lemma keys_dinsert (m : DMap) (k : Key) (v : Item) :
    (dinsert m k v).map Prod.fst =
      if k ∈ m.map Prod.fst then m.map Prod.fst else m.map Prod.fst ++ [k] := by
  induction m with
  | nil => simp [dinsert]
  | cons a rest ih =>
    show (if a.1 = k then (k, v) :: rest else a :: dinsert rest k v).map Prod.fst = _
    by_cases h1 : a.1 = k
    · rw [if_pos h1, if_pos (by simp [List.mem_cons, h1])]
      simp [h1]
    · rw [if_neg h1]
      simp only [List.map_cons, ih]
      by_cases h2 : k ∈ rest.map Prod.fst
      · rw [if_pos h2, if_pos (by simp [List.mem_cons, h2])]
      · rw [if_neg h2,
          if_neg (by simp only [List.map_cons, List.mem_cons]
                     rintro (e | e)
                     exacts [h1 e.symm, h2 e])]
        simp

lemma nodup_keys_dinsert (m : DMap) (k : Key) (v : Item)
    (h : (m.map Prod.fst).Nodup) : ((dinsert m k v).map Prod.fst).Nodup := by
  rw [keys_dinsert]
  by_cases h2 : k ∈ m.map Prod.fst
  · rw [if_pos h2]
    exact h
  · rw [if_neg h2, List.nodup_append]
    exact ⟨h, List.nodup_singleton k, by simpa using h2⟩

lemma buildItems_invariant (l : List Item) :
    (∀ kv ∈ buildItems l, ikey kv.2 = kv.1) ∧
      ((buildItems l).map Prod.fst).Nodup := by
  suffices h : ∀ (m : DMap), (∀ kv ∈ m, ikey kv.2 = kv.1) → (m.map Prod.fst).Nodup →
      (∀ kv ∈ l.foldl (fun m it => dinsert m (ikey it) it) m, ikey kv.2 = kv.1) ∧
        ((l.foldl (fun m it => dinsert m (ikey it) it) m).map Prod.fst).Nodup by
    exact h [] (by simp) (by simp)
  induction l with
  | nil => exact fun m h1 h2 => ⟨h1, h2⟩
  | cons a l ih =>
    intro m h1 h2
    refine ih (dinsert m (ikey a) a) ?_ (nodup_keys_dinsert _ _ _ h2)
    intro kv hkv
    rcases mem_dinsert _ _ _ _ hkv with h3 | h3
    · exact h1 kv h3
    · rw [h3]

lemma dlookup_of_mem (m : DMap) (hn : (m.map Prod.fst).Nodup) (kv : Key × Item)
    (h : kv ∈ m) : dlookup m kv.1 = some kv.2 := by
  induction m with
  | nil => cases h
  | cons a rest ih =>
    show (if a.1 = kv.1 then some a.2 else dlookup rest kv.1) = _
    rcases List.mem_cons.mp h with rfl | h1
    · rw [if_pos rfl]
    · rw [if_neg (fun e => (List.nodup_cons.mp hn).1 (by
        rw [e]
        exact List.mem_map_of_mem Prod.fst h1))]
      exact ih (List.nodup_cons.mp hn).2 h1

lemma mem_of_dlookup (m : DMap) (q : Key) (v : Item) (h : dlookup m q = some v) :
    (q, v) ∈ m := by
  induction m with
  | nil => cases h
  | cons a rest ih =>
    obtain ⟨a1, a2⟩ := a
    rw [show dlookup ((a1, a2) :: rest) q =
      if a1 = q then some a2 else dlookup rest q from rfl] at h
    by_cases h1 : a1 = q
    · rw [if_pos h1] at h
      rw [← h1, ← Option.some_inj.mp h]
      exact List.mem_cons_self _ _
    · rw [if_neg h1] at h
      exact List.mem_cons_of_mem _ (ih h)

lemma buildItems_go (l : List Item) (m : DMap) (q : Key) :
    dlookup (l.foldl (fun m it => dinsert m (ikey it) it) m) q =
      match lastWithKey l q with
      | some x => some x
      | none => dlookup m q := by
  induction l generalizing m with
  | nil => rfl
  | cons a l ih =>
    rw [List.foldl_cons, ih, show lastWithKey (a :: l) q =
      (match lastWithKey l q with
        | some x => some x
        | none => if ikey a = q then some a else none) from rfl]
    cases lastWithKey l q with
    | some x => rfl
    | none =>
      by_cases h : ikey a = q
      · rw [if_pos h, dlookup_dinsert, if_pos h.symm]
      · rw [if_neg h, dlookup_dinsert, if_neg (fun e => h e.symm)]

lemma dlookup_buildItems (l : List Item) (q : Key) :
    dlookup (buildItems l) q = lastWithKey l q := by
  rw [show buildItems l = l.foldl (fun m it => dinsert m (ikey it) it) [] from rfl,
    buildItems_go]
  cases lastWithKey l q <;> rfl

lemma lastWithKey_isSome (l : List Item) (q : Key) :
    (lastWithKey l q).isSome = true ↔ q ∈ l.map ikey := by
  induction l with
  | nil => simp [lastWithKey]
  | cons a l ih =>
    rw [show lastWithKey (a :: l) q =
      (match lastWithKey l q with
        | some x => some x
        | none => if ikey a = q then some a else none) from rfl]
    cases h : lastWithKey l q with
    | some x =>
      simp only [Option.isSome_some, List.map_cons, List.mem_cons, true_iff]
      right
      exact ih.mp (by rw [h]; rfl)
    | none =>
      by_cases h2 : ikey a = q
      · simp [h2]
      · rw [if_neg h2]
        simp only [Option.isSome_none, List.map_cons, List.mem_cons]
        constructor
        · intro hh
          cases hh
        · rintro (hh | hh)
          · exact absurd hh.symm h2
          · have := ih.mpr hh
            rw [h] at this
            cases this

lemma diff_added_def (old new : List Item) :
    (compute_inventory_diff old new).added =
      ((buildItems new).filter
        (fun kv => (dlookup (buildItems old) kv.1).isNone)).map (·.2) := rfl

lemma diff_removed_def (old new : List Item) :
    (compute_inventory_diff old new).removed =
      ((buildItems old).filter
        (fun kv => (dlookup (buildItems new) kv.1).isNone)).map (·.2) := rfl

lemma diff_changed_def (old new : List Item) :
    (compute_inventory_diff old new).changed =
      ((buildItems old).filterMap (fun kv =>
        (dlookup (buildItems new) kv.1).map (fun ni => (kv.2, ni)))).filterMap
        (fun p => if qtyOf p.1 ≠ qtyOf p.2
          then some (⟨p.2, qtyOf p.2 - qtyOf p.1⟩ : ChangedItem) else none) := rfl

lemma diff_unchanged_def (old new : List Item) :
    (compute_inventory_diff old new).unchanged =
      ((buildItems old).filterMap (fun kv =>
        (dlookup (buildItems new) kv.1).map (fun ni => (kv.2, ni)))).filterMap
        (fun p => if qtyOf p.1 = qtyOf p.2 then some p.2 else none) := rfl

lemma mem_pairs_iff (old new : List Item) (p : Item × Item) :
    p ∈ (buildItems old).filterMap (fun kv =>
        (dlookup (buildItems new) kv.1).map (fun ni => (kv.2, ni))) ↔
      ∃ k, dlookup (buildItems old) k = some p.1 ∧
        dlookup (buildItems new) k = some p.2 := by
  rw [List.mem_filterMap]
  constructor
  · rintro ⟨kv, hkv, hmap⟩
    obtain ⟨ni, hni, hpair⟩ := Option.map_eq_some'.mp hmap
    refine ⟨kv.1, ?_, ?_⟩
    · rw [show p.1 = kv.2 from by rw [← hpair]]
      exact dlookup_of_mem _ (buildItems_invariant old).2 kv hkv
    · rw [show p.2 = ni from by rw [← hpair]]
      exact hni
  · rintro ⟨k, ho, hn⟩
    refine ⟨(k, p.1), mem_of_dlookup _ _ _ ho, ?_⟩
    show (dlookup (buildItems new) k).map _ = _
    rw [hn]
    rfl

lemma mem_added_iff (old new : List Item) (k : Key) :
    k ∈ (compute_inventory_diff old new).added.map ikey ↔
      (dlookup (buildItems new) k).isSome = true ∧
        dlookup (buildItems old) k = none := by
  rw [diff_added_def]
  constructor
  · intro h
    obtain ⟨it, hit, hk⟩ := List.mem_map.mp h
    obtain ⟨kv, hkv, hkv2⟩ := List.mem_map.mp hit
    obtain ⟨hmem, hpred⟩ := List.mem_filter.mp hkv
    have hk1 : k = kv.1 := by
      rw [← hk, show it = kv.2 from hkv2.symm]
      exact (buildItems_invariant new).1 kv hmem
    subst hk1
    refine ⟨?_, by simpa using hpred⟩
    rw [dlookup_of_mem _ (buildItems_invariant new).2 kv hmem]
    rfl
  · rintro ⟨h1, h2⟩
    obtain ⟨v, hv⟩ := Option.isSome_iff_exists.mp h1
    have hmem : (k, v) ∈ buildItems new := mem_of_dlookup _ _ _ hv
    refine List.mem_map.mpr ⟨v, List.mem_map.mpr ⟨(k, v),
      List.mem_filter.mpr ⟨hmem, by simp [h2]⟩, rfl⟩, ?_⟩
    exact (buildItems_invariant new).1 (k, v) hmem

lemma mem_removed_iff (old new : List Item) (k : Key) :
    k ∈ (compute_inventory_diff old new).removed.map ikey ↔
      (dlookup (buildItems old) k).isSome = true ∧
        dlookup (buildItems new) k = none := by
  rw [diff_removed_def]
  constructor
  · intro h
    obtain ⟨it, hit, hk⟩ := List.mem_map.mp h
    obtain ⟨kv, hkv, hkv2⟩ := List.mem_map.mp hit
    obtain ⟨hmem, hpred⟩ := List.mem_filter.mp hkv
    have hk1 : k = kv.1 := by
      rw [← hk, show it = kv.2 from hkv2.symm]
      exact (buildItems_invariant old).1 kv hmem
    subst hk1
    refine ⟨?_, by simpa using hpred⟩
    rw [dlookup_of_mem _ (buildItems_invariant old).2 kv hmem]
    rfl
  · rintro ⟨h1, h2⟩
    obtain ⟨v, hv⟩ := Option.isSome_iff_exists.mp h1
    have hmem : (k, v) ∈ buildItems old := mem_of_dlookup _ _ _ hv
    refine List.mem_map.mpr ⟨v, List.mem_map.mpr ⟨(k, v),
      List.mem_filter.mpr ⟨hmem, by simp [h2]⟩, rfl⟩, ?_⟩
    exact (buildItems_invariant old).1 (k, v) hmem

lemma mem_changed_iff (old new : List Item) (k : Key) :
    k ∈ (compute_inventory_diff old new).changed.map (fun c => ikey c.item) ↔
      ∃ oi ni, dlookup (buildItems old) k = some oi ∧
        dlookup (buildItems new) k = some ni ∧ qtyOf oi ≠ qtyOf ni := by
  rw [diff_changed_def]
  constructor
  · intro h
    obtain ⟨c, hc, hk⟩ := List.mem_map.mp h
    obtain ⟨p, hp, hfp⟩ := List.mem_filterMap.mp hc
    obtain ⟨k0, ho, hn⟩ := (mem_pairs_iff old new p).mp hp
    by_cases hq : qtyOf p.1 ≠ qtyOf p.2
    · rw [if_pos hq] at hfp
      have hc2 : c = ⟨p.2, qtyOf p.2 - qtyOf p.1⟩ := (Option.some_inj.mp hfp).symm
      have hk0 : k = k0 := by
        rw [← hk, hc2]
        exact (buildItems_invariant new).1 (k0, p.2) (mem_of_dlookup _ _ _ hn)
      subst hk0
      exact ⟨p.1, p.2, ho, hn, hq⟩
    · rw [if_neg hq] at hfp
      cases hfp
  · rintro ⟨oi, ni, ho, hn, hq⟩
    refine List.mem_map.mpr ⟨⟨ni, qtyOf ni - qtyOf oi⟩, List.mem_filterMap.mpr
      ⟨(oi, ni), (mem_pairs_iff old new (oi, ni)).mpr ⟨k, ho, hn⟩,
        by rw [if_pos hq]⟩, ?_⟩
    exact (buildItems_invariant new).1 (k, ni) (mem_of_dlookup _ _ _ hn)

lemma mem_unchanged_iff (old new : List Item) (k : Key) :
    k ∈ (compute_inventory_diff old new).unchanged.map ikey ↔
      ∃ oi ni, dlookup (buildItems old) k = some oi ∧
        dlookup (buildItems new) k = some ni ∧ qtyOf oi = qtyOf ni := by
  rw [diff_unchanged_def]
  constructor
  · intro h
    obtain ⟨it, hit, hk⟩ := List.mem_map.mp h
    obtain ⟨p, hp, hfp⟩ := List.mem_filterMap.mp hit
    obtain ⟨k0, ho, hn⟩ := (mem_pairs_iff old new p).mp hp
    by_cases hq : qtyOf p.1 = qtyOf p.2
    · rw [if_pos hq] at hfp
      have hit2 : it = p.2 := (Option.some_inj.mp hfp).symm
      have hk0 : k = k0 := by
        rw [← hk, hit2]
        exact (buildItems_invariant new).1 (k0, p.2) (mem_of_dlookup _ _ _ hn)
      subst hk0
      exact ⟨p.1, p.2, ho, hn, hq⟩
    · rw [if_neg hq] at hfp
      cases hfp
  · rintro ⟨oi, ni, ho, hn, hq⟩
    refine List.mem_map.mpr ⟨ni, List.mem_filterMap.mpr
      ⟨(oi, ni), (mem_pairs_iff old new (oi, ni)).mpr ⟨k, ho, hn⟩,
        by rw [if_pos hq]⟩, ?_⟩
    exact (buildItems_invariant new).1 (k, ni) (mem_of_dlookup _ _ _ hn)

/-! ### Claim theorems -/

/-- C9: `extract_quantity` returns the first numeral of its input parsed
as a float, and the fail-safe default `1.0` on `None`, the empty string,
or any digit-free input; it never surfaces an error (the embedding is a
total function).  Concretely: `"" ↦ 1`, `None ↦ 1`, `"abc" ↦ 1`,
`"2 bottles" ↦ 2`, `"0.5 kg" ↦ 0.5`. -/
theorem C9_extract_quantity_contract :
    extract_quantity none = 1 ∧
    extract_quantity (some "") = 1 ∧
    extract_quantity (some "abc") = 1 ∧
    extract_quantity (some "2 bottles") = 2 ∧
    extract_quantity (some "0.5 kg") = 1/2 ∧
    (∀ s : String, (∀ c ∈ s.data, ¬ c.isDigit) → extract_quantity (some s) = 1) := by
  refine ⟨rfl, by decide, by decide, by decide, ?_, ?_⟩
  · show extract_quantity (some "0.5 kg") = 1/2
    have h1 : firstNum ("0.5 kg" : String).data = some ['0', '.', '5'] := by decide
    have h2 : digitsVal ['0'] = 0 := by decide
    have h3 : digitsVal ['5'] = 5 := by decide
    show (if ("0.5 kg" : String).data = [] then (1 : ℚ)
      else match firstNum ("0.5 kg" : String).data with
        | none => 1
        | some m => parseFloat m) = 1/2
    rw [if_neg (by decide), h1]
    show (digitsVal (['0', '.', '5'].takeWhile Char.isDigit) : ℚ) +
        (digitsVal (['5'].takeWhile Char.isDigit) : ℚ) /
          ((10 : ℕ) ^ (['5'].takeWhile Char.isDigit).length : ℕ) = 1/2
    rw [show ['0', '.', '5'].takeWhile Char.isDigit = ['0'] from by decide,
      show ['5'].takeWhile Char.isDigit = ['5'] from by decide, h2, h3]
    norm_num
  · intro s h
    show (if s.data = [] then (1 : ℚ)
      else match firstNum s.data with
        | none => 1
        | some m => parseFloat m) = 1
    by_cases he : s.data = []
    · rw [if_pos he]
    · rw [if_neg he, firstNum_eq_none s.data h]

/-- Witness for C9 at the digit-free input `"no digits here"`. -/
theorem C9_extract_quantity_contract_witness :
    (∀ c ∈ ("no digits here" : String).data, ¬ c.isDigit) ∧
      extract_quantity (some "no digits here") = 1 :=
  ⟨by decide, C9_extract_quantity_contract.2.2.2.2.2 "no digits here" (by decide)⟩

/-- C4: an item in `diff.changed` with `quantity_diff > 0` (a restock) is
a no-op for `_update_consumption_patterns`: deleting it from the changed
bucket yields the very same pattern table, so it appends no history
record, touches no `last_consumed`, and has no effect on any
`consumption_rate`. -/
theorem C4_restock_frame (t : PTable) (now : ℚ)
    (added removed : List Item) (unchanged : List Item)
    (l1 l2 : List ChangedItem) (c : ChangedItem) (h : 0 < c.quantity_diff) :
    update_consumption_patterns t ⟨added, removed, l1 ++ c :: l2, unchanged⟩ now =
      update_consumption_patterns t ⟨added, removed, l1 ++ l2, unchanged⟩ now := by
  unfold update_consumption_patterns appendPhase
  simp only [List.foldl_append, List.foldl_cons]
  rw [trackChanged_of_pos now _ c h]

/-- Witness for C4 at a concrete table, diff and restock item. -/
theorem C4_restock_frame_witness :
    (0 : ℚ) < 3 ∧
      update_consumption_patterns (fun _ => none)
          ⟨[], [⟨"Milk", "Dairy", some "2"⟩], [] ++ [⟨⟨"Eggs", "Dairy", some "5"⟩, 3⟩], []⟩ 7 =
        update_consumption_patterns (fun _ => none)
          ⟨[], [⟨"Milk", "Dairy", some "2"⟩], [] ++ [], []⟩ 7 :=
  ⟨by norm_num,
    C4_restock_frame (fun _ => none) 7 [] [⟨"Milk", "Dairy", some "2"⟩] [] [] []
      ⟨⟨"Eggs", "Dairy", some "5"⟩, 3⟩ (by norm_num)⟩

/-- C6: the recommendation list is sorted by urgency tier first (all High
entries precede all Medium entries, which precede all Low entries), and
within a tier by descending `consumption_rate`; it is a permutation of
the emitted candidates.  On the spec's three candidates
`{A: 0.5 High, B: 0.1 Medium, C: 0.1 Low}` the output order is
`[A, B, C]`. -/
theorem C6_ranking_order :
    (∀ l : List Recommendation,
      (rankSort l).Perm l ∧
      (rankSort l).Pairwise (fun a b =>
        urgNum a.urgency < urgNum b.urgency ∨
          (a.urgency = b.urgency ∧ b.consumption_rate ≤ a.consumption_rate))) ∧
    rankSort [recC, recA, recB] = [recA, recB, recC] := by
  refine ⟨fun l => ⟨List.perm_insertionSort recLE l, ?_⟩, rfl⟩
  refine (List.sorted_insertionSort recLE l).imp ?_
  intro a b hab
  rcases hab with h | ⟨h, hr⟩
  · exact Or.inl h
  · exact Or.inr ⟨urgency_eq_of_urgNum_eq _ _ h, hr⟩

/-- C7: a history group is dropped from the recommendations exactly when
an item with its identity key sits in current inventory with normalized
quantity above `0.5`; otherwise (absent, or quantity at most `0.5`) its
recommendation is emitted — membership in the final list is exactly
emission from some group.  Concretely: "Milk" at quantity `0.6` yields no
recommendation, at `0.4` it yields one. -/
theorem C7_recommendation_suppression :
    (∀ (t : PTable) (invMap : DMap) (now : ℚ) (g : HistGroup),
      emitRec t invMap now g = none ↔
        ∃ it, dlookup invMap (gkey g) = some it ∧ (1 : ℚ)/2 < qtyOf it) ∧
    (∀ (t : PTable) (inv : List Item) (gs : List HistGroup) (now : ℚ)
      (r : Recommendation),
      r ∈ get_smart_recommendations t inv gs now ↔
        ∃ g ∈ gs, emitRec t (buildItems inv) now g = some r) ∧
    get_smart_recommendations emptyTable [item06] [gMilk] 0 = [] ∧
    get_smart_recommendations emptyTable [item04] [gMilk] 0 =
      [⟨"Milk", "Dairy", "Recently consumed", .Medium, some 0, 0⟩] := by
  refine ⟨emitRec_eq_none_iff, mem_get_smart_recommendations, ?_, ?_⟩
  · have hnone : emitRec emptyTable (buildItems [item06]) 0 gMilk = none :=
      (emitRec_eq_none_iff _ _ _ _).mpr
        ⟨item06, by decide, by rw [qtyOf_item06]; norm_num⟩
    show rankSort (([gMilk] : List HistGroup).filterMap
      (emitRec emptyTable (buildItems [item06]) 0)) = []
    simp [hnone, rankSort]
  · have hlook : dlookup (buildItems [item04]) (gkey gMilk) = some item04 := by
      decide
    have hq : ¬ ((1 : ℚ)/2 < qtyOf item04) := by
      rw [qtyOf_item04]; norm_num
    have hdays : daysSince 0 gMilk.last_consumed = 0 := by
      show (⌊((0 : ℚ) - 0) / 86400⌋ : ℤ) = 0
      norm_num
    have hcls : classifyRec emptyTable 0 gMilk =
        ⟨"Milk", "Dairy", "Recently consumed", .Medium, some 0, 0⟩ := by
      unfold classifyRec
      rw [show rateOf emptyTable (lowerStr gMilk.name) = 0 from rfl]
      rw [if_neg (by norm_num), hdays, if_pos (by norm_num)]
      rfl
    have hsome : emitRec emptyTable (buildItems [item04]) 0 gMilk =
        some (⟨"Milk", "Dairy", "Recently consumed", .Medium, some 0, 0⟩ :
          Recommendation) := by
      rw [emitRec_lookup_some emptyTable 0 hlook, if_neg hq, hcls]
    show rankSort (([gMilk] : List HistGroup).filterMap
      (emitRec emptyTable (buildItems [item04]) 0)) = _
    simp [hsome, rankSort]

/-- C8: an emitted recommendation carries the pattern table's rate for
the group's lowercase name (default 0), is High exactly when that rate
exceeds `0.3`, else Medium exactly when the group's last consumption was
under 3 whole days before `now` (0 days when no timestamp), else Low —
each with its reason string. -/
theorem C8_urgency_classification (t : PTable) (invMap : DMap) (now : ℚ)
    (g : HistGroup) (r : Recommendation) (h : emitRec t invMap now g = some r) :
    r.consumption_rate = rateOf t (lowerStr g.name) ∧
    (r.urgency = .High ↔ 3/10 < rateOf t (lowerStr g.name)) ∧
    (r.urgency = .Medium ↔
      ¬ 3/10 < rateOf t (lowerStr g.name) ∧ daysSince now g.last_consumed < 3) ∧
    (r.urgency = .Low ↔
      ¬ 3/10 < rateOf t (lowerStr g.name) ∧ ¬ daysSince now g.last_consumed < 3) ∧
    (r.urgency = .High →
      r.reason = "Frequently used (" ++ fmt1 (rateOf t (lowerStr g.name)) ++ "/day)") ∧
    (r.urgency = .Medium → r.reason = "Recently consumed") ∧
    (r.urgency = .Low → r.reason = "Occasionally used") := by
  have hr : r = classifyRec t now g := by
    rcases hl : dlookup invMap (gkey g) with _ | it
    · rw [emitRec_lookup_none t now hl] at h
      exact (Option.some_inj.mp h).symm
    · rw [emitRec_lookup_some t now hl] at h
      by_cases hq : (1 : ℚ)/2 < qtyOf it
      · rw [if_pos hq] at h; cases h
      · rw [if_neg hq] at h
        exact (Option.some_inj.mp h).symm
  subst hr
  unfold classifyRec
  by_cases h1 : 3/10 < rateOf t (lowerStr g.name)
  · simp [h1]
  · by_cases h2 : daysSince now g.last_consumed < 3
    · simp [h1, h2]
    · simp [h1, h2]

/-- Witness for C8: the empty inventory map never suppresses, and the
"Milk" group with rate 0 and last consumption now is classified Medium. -/
theorem C8_urgency_classification_witness :
    emitRec emptyTable [] 0 gMilk = some (classifyRec emptyTable 0 gMilk) ∧
    ((classifyRec emptyTable 0 gMilk).urgency = .Medium ↔
      ¬ (3 : ℚ)/10 < rateOf emptyTable (lowerStr gMilk.name) ∧
        daysSince 0 gMilk.last_consumed < 3) :=
  ⟨rfl, (C8_urgency_classification emptyTable [] 0 gMilk _ rfl).2.2.1⟩

/-- C2: one pattern-update call appends, to each ingredient's history,
exactly one `consumed` record (timestamp `now`, raw quantity) per removed
item with that lowercase name and exactly one `partial_consumed` record
(timestamp `now`, quantity `|quantity_diff|`) per changed item with
negative diff and that name — and nothing else; every touched ingredient
gets `last_consumed = now`, and an ingredient absent from the table is
created (rate 0). -/
theorem C2_pattern_update_appends (t : PTable) (d : DiffResult) (now : ℚ)
    (n : String) :
    historyAt (update_consumption_patterns t d now) n =
      historyAt t n
        ++ (d.removed.filter (fun it => lowerStr it.name == n)).map (consumeRecord now)
        ++ (d.changed.filter (fun c => decide (c.quantity_diff < 0) &&
            (lowerStr c.item.name == n))).map (partRecord now) ∧
    (((∃ it ∈ d.removed, lowerStr it.name = n) ∨
        (∃ c ∈ d.changed, c.quantity_diff < 0 ∧ lowerStr c.item.name = n)) →
      lastConsumedAt (update_consumption_patterns t d now) n = some now) ∧
    (t n = none →
      ((∃ it ∈ d.removed, lowerStr it.name = n) ∨
        (∃ c ∈ d.changed, c.quantity_diff < 0 ∧ lowerStr c.item.name = n)) →
      ∃ p, update_consumption_patterns t d now n = some p ∧
        p.consumption_rate = 0) := by
  refine ⟨by rw [historyAt_update, historyAt_appendPhase], ?_, ?_⟩
  · intro h
    have hcond : d.removed.any (fun it => lowerStr it.name == n) = true ∨
        d.changed.any (fun c => decide (c.quantity_diff < 0) &&
          (lowerStr c.item.name == n)) = true := by
      rcases h with ⟨it, hmem, hname⟩ | ⟨c, hmem, hq, hname⟩
      · exact Or.inl (List.any_eq_true.mpr ⟨it, hmem, by simp [hname]⟩)
      · exact Or.inr (List.any_eq_true.mpr ⟨c, hmem, by simp [hname, hq]⟩)
    rw [lastConsumedAt_update, lastConsumedAt_appendPhase, if_pos hcond]
  · intro hnone htouch
    cases ha : appendPhase t d now n with
    | none =>
      exfalso
      have hh := historyAt_appendPhase t d now n
      rw [show historyAt (appendPhase t d now) n = [] from by
          unfold historyAt; rw [ha],
        show historyAt t n = [] from by unfold historyAt; rw [hnone],
        List.nil_append] at hh
      obtain ⟨hr0, hc0⟩ := List.append_eq_nil.mp hh.symm
      rcases htouch with ⟨it, hmem, hname⟩ | ⟨c, hmem, hq, hname⟩
      · have hin : it ∈ d.removed.filter (fun it => lowerStr it.name == n) :=
          List.mem_filter.mpr ⟨hmem, by simp [hname]⟩
        rw [List.map_eq_nil_iff.mp hr0] at hin
        cases hin
      · have hin : c ∈ d.changed.filter (fun c => decide (c.quantity_diff < 0) &&
            (lowerStr c.item.name == n)) :=
          List.mem_filter.mpr ⟨hmem, by simp [hname, hq]⟩
        rw [List.map_eq_nil_iff.mp hc0] at hin
        cases hin
    | some q =>
      refine ⟨recomputeRate q, ?_, ?_⟩
      · show (appendPhase t d now n).map recomputeRate = some (recomputeRate q)
        rw [ha]
        rfl
      · have hq0 : q.consumption_rate = 0 := by
          have h1 : rateAt (appendPhase t d now) n = some q.consumption_rate := by
            unfold rateAt
            rw [ha]
            rfl
          rcases rateAt_appendPhase t d now n with h | ⟨_, h⟩
          · rw [h1, show rateAt t n = none from by unfold rateAt; rw [hnone]; rfl] at h
            cases h
          · rw [h1] at h
            exact Option.some_inj.mp h
        have hconst : ∀ r ∈ q.history, r.timestamp = now := by
          have hh := historyAt_appendPhase t d now n
          rw [show historyAt (appendPhase t d now) n = q.history from by
              unfold historyAt; rw [ha],
            show historyAt t n = [] from by unfold historyAt; rw [hnone],
            List.nil_append] at hh
          intro r hr
          rw [hh] at hr
          rcases List.mem_append.mp hr with h1 | h2
          · obtain ⟨it, _, rfl⟩ := List.mem_map.mp h1
            rfl
          · obtain ⟨c, _, rfl⟩ := List.mem_map.mp h2
            rfl
        rw [recomputeRate_of_posGaps_nil q (posGaps_of_const _ now hconst), hq0]

/-- Witness for C2 at a removed milk item on the empty table. -/
theorem C2_pattern_update_appends_witness :
    emptyTable "milk" = none ∧
    ((∃ it ∈ removedMilkDiff.removed, lowerStr it.name = "milk") ∨
      (∃ c ∈ removedMilkDiff.changed, c.quantity_diff < 0 ∧
        lowerStr c.item.name = "milk")) ∧
    lastConsumedAt (update_consumption_patterns emptyTable removedMilkDiff 5) "milk" =
      some 5 ∧
    (∃ p, update_consumption_patterns emptyTable removedMilkDiff 5 "milk" = some p ∧
      p.consumption_rate = 0) := by
  have htouch : (∃ it ∈ removedMilkDiff.removed, lowerStr it.name = "milk") ∨
      (∃ c ∈ removedMilkDiff.changed, c.quantity_diff < 0 ∧
        lowerStr c.item.name = "milk") :=
    Or.inl ⟨milkOld, List.mem_singleton.mpr rfl, by decide⟩
  exact ⟨rfl, htouch,
    (C2_pattern_update_appends emptyTable removedMilkDiff 5 "milk").2.1 htouch,
    (C2_pattern_update_appends emptyTable removedMilkDiff 5 "milk").2.2 rfl htouch⟩

/-- C3: after the appends, the rate of every tracked ingredient (not only
those touched) is recomputed from its full stored history: fewer than two
records leave the pattern (hence a rate of 0) unchanged; all-non-positive
gaps leave the previous rate unchanged; a nonempty positive-gap list sets
`rate = 86400 / avg_seconds` (`= 86400·len/sum`), with no division error
possible; daily events at `t, t+86400, t+172800` give rate 1. -/
theorem C3_rate_recomputation :
    (∀ (t : PTable) (d : DiffResult) (now : ℚ) (n : String),
      update_consumption_patterns t d now n =
        (appendPhase t d now n).map recomputeRate) ∧
    (∀ p : Pattern, p.history.length < 2 → recomputeRate p = p) ∧
    (∀ p : Pattern, posGaps p.history = [] → recomputeRate p = p) ∧
    (∀ p : Pattern, 2 ≤ p.history.length → posGaps p.history ≠ [] →
      (recomputeRate p).consumption_rate =
        86400 * (posGaps p.history).length / (posGaps p.history).sum) ∧
    (∀ (t : PTable) (d : DiffResult) (now : ℚ),
      (∀ n p, t n = some p → p.history.length < 2 → p.consumption_rate = 0) →
      ∀ n p, update_consumption_patterns t d now n = some p →
        p.history.length < 2 → p.consumption_rate = 0) ∧
    (recomputeRate dailyPattern).consumption_rate = 1 := by
  refine ⟨fun _ _ _ _ => rfl, recomputeRate_of_short, recomputeRate_of_posGaps_nil,
    recomputeRate_formula, rateZero_preserved, ?_⟩
  have hlen2 : 2 ≤ dailyPattern.history.length := by norm_num [dailyPattern, dailyHist]
  have hne2 : posGaps dailyPattern.history ≠ [] := by
    rw [show dailyPattern.history = dailyHist from rfl, posGaps_daily]
    simp
  rw [recomputeRate_formula dailyPattern hlen2 hne2,
    show dailyPattern.history = dailyHist from rfl, posGaps_daily]
  norm_num

/-- Witness for C3's hypothesis-bearing conjuncts at concrete patterns:
one record (rate left at 0), two records with no positive gap (rate left
unchanged), the daily pattern (rate formula applies), and a one-step
update from the empty table (invariant instance). -/
theorem C3_rate_recomputation_witness :
    (oneRecPattern.history.length < 2 ∧ recomputeRate oneRecPattern = oneRecPattern) ∧
    (posGaps sameTimePattern.history = [] ∧
      recomputeRate sameTimePattern = sameTimePattern) ∧
    (2 ≤ dailyPattern.history.length ∧ posGaps dailyPattern.history ≠ [] ∧
      (recomputeRate dailyPattern).consumption_rate =
        86400 * (posGaps dailyPattern.history).length /
          (posGaps dailyPattern.history).sum) ∧
    (update_consumption_patterns emptyTable removedMilkDiff 5 "milk" =
        some milkAfterUpdate ∧
      milkAfterUpdate.history.length < 2 ∧ milkAfterUpdate.consumption_rate = 0) := by
  have hlen : 2 ≤ dailyPattern.history.length := by norm_num [dailyPattern, dailyHist]
  have hne : posGaps dailyPattern.history ≠ [] := by
    rw [show dailyPattern.history = dailyHist from rfl, posGaps_daily]
    simp
  have hup : update_consumption_patterns emptyTable removedMilkDiff 5 "milk" =
      some milkAfterUpdate := by decide
  refine ⟨⟨by norm_num [oneRecPattern],
      C3_rate_recomputation.2.1 oneRecPattern (by norm_num [oneRecPattern])⟩,
    ⟨posGaps_sameTime,
      C3_rate_recomputation.2.2.1 sameTimePattern posGaps_sameTime⟩,
    ⟨hlen, hne, C3_rate_recomputation.2.2.2.1 dailyPattern hlen hne⟩,
    ⟨hup, by norm_num [milkAfterUpdate],
      C3_rate_recomputation.2.2.2.2.1 emptyTable removedMilkDiff 5
        (fun n p0 h _ => by exact absurd h (by simp [emptyTable]))
        "milk" milkAfterUpdate hup (by norm_num [milkAfterUpdate])⟩⟩

/-- C5: inside one `save_items` call a reduction is recorded twice — once
by `_update_consumption_patterns` (with its own timestamp `tUpd`) and
once again by the duplicated tracking block of `save_items` (with the
earlier timestamp `tSave`, after the rate recomputation), so the
ingredient's history gains two `partial_consumed` records for a single
observed reduction. -/
theorem C5_save_items_double_append (t : PTable) (old_inventory new_items : List Item)
    (tSave tUpd : ℚ) (n : String) (c : ChangedItem)
    (hc : (compute_inventory_diff old_inventory new_items).changed.filter
        (fun c' => decide (c'.quantity_diff < 0) && (lowerStr c'.item.name == n)) = [c])
    (hrm : (compute_inventory_diff old_inventory new_items).removed.filter
        (fun it => lowerStr it.name == n) = []) :
    historyAt (save_items_tracking t old_inventory new_items tSave tUpd) n =
      historyAt t n ++ [partRecord tUpd c, partRecord tSave c] := by
  show historyAt ((compute_inventory_diff old_inventory new_items).changed.foldl
    (trackChanged tSave)
    (update_consumption_patterns t (compute_inventory_diff old_inventory new_items)
      tUpd)) n = _
  rw [historyAt_foldl_trackChanged, historyAt_update, historyAt_appendPhase, hc, hrm]
  simp

/-- Witness for C5: milk drops from quantity "3" to "1" in one save; its
history receives the same reduction record twice. -/
theorem C5_save_items_double_append_witness :
    ((compute_inventory_diff [milkOld] [milkNew]).changed.filter
        (fun c' => decide (c'.quantity_diff < 0) &&
          (lowerStr c'.item.name == "milk")) = [milkChanged]) ∧
    ((compute_inventory_diff [milkOld] [milkNew]).removed.filter
        (fun it => lowerStr it.name == "milk") = []) ∧
    historyAt (save_items_tracking emptyTable [milkOld] [milkNew] 100 200) "milk" =
      [partRecord 200 milkChanged, partRecord 100 milkChanged] := by
  have hdiff : compute_inventory_diff [milkOld] [milkNew] =
      ⟨[], [], [milkChanged], []⟩ := rfl
  have hlt : milkChanged.quantity_diff < 0 := by
    show qtyOf milkNew - qtyOf milkOld < 0
    rw [show qtyOf milkNew = 1 from by decide, show qtyOf milkOld = 3 from by decide]
    norm_num
  have hc : (compute_inventory_diff [milkOld] [milkNew]).changed.filter
      (fun c' => decide (c'.quantity_diff < 0) &&
        (lowerStr c'.item.name == "milk")) = [milkChanged] := by
    rw [hdiff]
    show List.filter _ [milkChanged] = [milkChanged]
    rw [List.filter_cons_of_pos
      (by
        show (decide (milkChanged.quantity_diff < 0) &&
          (lowerStr milkChanged.item.name == "milk")) = true
        rw [decide_eq_true hlt]
        decide)]
    rfl
  have hrm : (compute_inventory_diff [milkOld] [milkNew]).removed.filter
      (fun it => lowerStr it.name == "milk") = [] := by
    rw [hdiff]
    rfl
  exact ⟨hc, hrm, C5_save_items_double_append emptyTable [milkOld] [milkNew]
    100 200 "milk" milkChanged hc hrm⟩

/-- C1: every identity key in the union of the two snapshots lands in
exactly one of the four diff buckets, and no key outside the union
appears in any bucket. -/
theorem C1_diff_totality_exclusivity (old new : List Item) (k : Key) :
    ((k ∈ old.map ikey ∨ k ∈ new.map ikey) →
      bucketCount (compute_inventory_diff old new) k = 1) ∧
    (¬ (k ∈ old.map ikey ∨ k ∈ new.map ikey) →
      bucketCount (compute_inventory_diff old new) k = 0) := by
  have hio : (dlookup (buildItems old) k).isSome = true ↔ k ∈ old.map ikey := by
    rw [dlookup_buildItems]
    exact lastWithKey_isSome old k
  have hin : (dlookup (buildItems new) k).isSome = true ↔ k ∈ new.map ikey := by
    rw [dlookup_buildItems]
    exact lastWithKey_isSome new k
  constructor
  · intro h
    rcases ho : dlookup (buildItems old) k with _ | oi
    · have hkn : (dlookup (buildItems new) k).isSome = true := by
        rcases h with h | h
        · have := hio.mpr h
          rw [ho] at this
          simp at this
        · exact hin.mpr h
      have hA : k ∈ (compute_inventory_diff old new).added.map ikey :=
        (mem_added_iff old new k).mpr ⟨hkn, ho⟩
      have hR : k ∉ (compute_inventory_diff old new).removed.map ikey := by
        intro hh
        have := ((mem_removed_iff old new k).mp hh).1
        rw [ho] at this
        simp at this
      have hC : k ∉ (compute_inventory_diff old new).changed.map
          (fun c => ikey c.item) := by
        intro hh
        obtain ⟨oi, ni, hoi, _, _⟩ := (mem_changed_iff old new k).mp hh
        rw [ho] at hoi
        cases hoi
      have hU : k ∉ (compute_inventory_diff old new).unchanged.map ikey := by
        intro hh
        obtain ⟨oi, ni, hoi, _, _⟩ := (mem_unchanged_iff old new k).mp hh
        rw [ho] at hoi
        cases hoi
      simp [bucketCount, hA, hR, hC, hU]
    · rcases hn : dlookup (buildItems new) k with _ | ni
      · have hA : k ∉ (compute_inventory_diff old new).added.map ikey := by
          intro hh
          have := ((mem_added_iff old new k).mp hh).1
          rw [hn] at this
          simp at this
        have hR : k ∈ (compute_inventory_diff old new).removed.map ikey :=
          (mem_removed_iff old new k).mpr ⟨by rw [ho]; rfl, hn⟩
        have hC : k ∉ (compute_inventory_diff old new).changed.map
            (fun c => ikey c.item) := by
          intro hh
          obtain ⟨oi', ni', _, hni, _⟩ := (mem_changed_iff old new k).mp hh
          rw [hn] at hni
          cases hni
        have hU : k ∉ (compute_inventory_diff old new).unchanged.map ikey := by
          intro hh
          obtain ⟨oi', ni', _, hni, _⟩ := (mem_unchanged_iff old new k).mp hh
          rw [hn] at hni
          cases hni
        simp [bucketCount, hA, hR, hC, hU]
      · have hA : k ∉ (compute_inventory_diff old new).added.map ikey := by
          intro hh
          have := ((mem_added_iff old new k).mp hh).2
          rw [ho] at this
          cases this
        have hR : k ∉ (compute_inventory_diff old new).removed.map ikey := by
          intro hh
          have := ((mem_removed_iff old new k).mp hh).2
          rw [hn] at this
          cases this
        by_cases hq : qtyOf oi = qtyOf ni
        · have hC : k ∉ (compute_inventory_diff old new).changed.map
              (fun c => ikey c.item) := by
            intro hh
            obtain ⟨oi', ni', hoi, hni, hq'⟩ := (mem_changed_iff old new k).mp hh
            rw [ho] at hoi
            rw [hn] at hni
            exact hq' (by
              rw [Option.some_inj.mp hoi, Option.some_inj.mp hni] at hq
              exact hq)
          have hU : k ∈ (compute_inventory_diff old new).unchanged.map ikey :=
            (mem_unchanged_iff old new k).mpr ⟨oi, ni, ho, hn, hq⟩
          simp [bucketCount, hA, hR, hC, hU]
        · have hC : k ∈ (compute_inventory_diff old new).changed.map
              (fun c => ikey c.item) :=
            (mem_changed_iff old new k).mpr ⟨oi, ni, ho, hn, hq⟩
          have hU : k ∉ (compute_inventory_diff old new).unchanged.map ikey := by
            intro hh
            obtain ⟨oi', ni', hoi, hni, hq'⟩ := (mem_unchanged_iff old new k).mp hh
            rw [ho] at hoi
            rw [hn] at hni
            exact hq (by
              rw [Option.some_inj.mp hoi, Option.some_inj.mp hni]
              exact hq')
          simp [bucketCount, hA, hR, hC, hU]
  · intro h
    push_neg at h
    have ho : dlookup (buildItems old) k = none := by
      cases hlo : dlookup (buildItems old) k with
      | none => rfl
      | some oi => exact absurd (hio.mp (by rw [hlo]; rfl)) h.1
    have hn : dlookup (buildItems new) k = none := by
      cases hln : dlookup (buildItems new) k with
      | none => rfl
      | some ni => exact absurd (hin.mp (by rw [hln]; rfl)) h.2
    have hA : k ∉ (compute_inventory_diff old new).added.map ikey := by
      intro hh
      have := ((mem_added_iff old new k).mp hh).1
      rw [hn] at this
      simp at this
    have hR : k ∉ (compute_inventory_diff old new).removed.map ikey := by
      intro hh
      have := ((mem_removed_iff old new k).mp hh).1
      rw [ho] at this
      simp at this
    have hC : k ∉ (compute_inventory_diff old new).changed.map
        (fun c => ikey c.item) := by
      intro hh
      obtain ⟨oi, ni, hoi, _, _⟩ := (mem_changed_iff old new k).mp hh
      rw [ho] at hoi
      cases hoi
    have hU : k ∉ (compute_inventory_diff old new).unchanged.map ikey := by
      intro hh
      obtain ⟨oi, ni, hoi, _, _⟩ := (mem_unchanged_iff old new k).mp hh
      rw [ho] at hoi
      cases hoi
    simp [bucketCount, hA, hR, hC, hU]

/-- Witness for C1: the milk key (present in both snapshots) lands in
exactly one bucket; a key in neither snapshot is in no bucket. -/
theorem C1_diff_totality_exclusivity_witness :
    ((("milk", "dairy") ∈ ([milkOld] : List Item).map ikey ∨
        ("milk", "dairy") ∈ ([milkNew] : List Item).map ikey) ∧
      bucketCount (compute_inventory_diff [milkOld] [milkNew]) ("milk", "dairy") = 1) ∧
    (¬ (("egg", "dairy") ∈ ([milkOld] : List Item).map ikey ∨
        ("egg", "dairy") ∈ ([milkNew] : List Item).map ikey) ∧
      bucketCount (compute_inventory_diff [milkOld] [milkNew]) ("egg", "dairy") = 0) :=
  ⟨⟨Or.inl (by decide),
    (C1_diff_totality_exclusivity [milkOld] [milkNew] ("milk", "dairy")).1
      (Or.inl (by decide))⟩,
  ⟨by decide,
    (C1_diff_totality_exclusivity [milkOld] [milkNew] ("egg", "dairy")).2 (by decide)⟩⟩

/-- C10: the key→item dicts built by the differ resolve duplicate
identity keys within one snapshot by last-write-wins, so every bucket of
the diff carries the item occurring latest in its snapshot; concretely,
two same-key items in one snapshot yield the second one in the `added`
bucket. -/
theorem C10_last_write_wins :
    (∀ (l : List Item) (k : Key), dlookup (buildItems l) k = lastWithKey l k) ∧
    (∀ old new : List Item,
      (∀ it ∈ (compute_inventory_diff old new).added,
        lastWithKey new (ikey it) = some it) ∧
      (∀ it ∈ (compute_inventory_diff old new).removed,
        lastWithKey old (ikey it) = some it) ∧
      (∀ c ∈ (compute_inventory_diff old new).changed,
        lastWithKey new (ikey c.item) = some c.item) ∧
      (∀ it ∈ (compute_inventory_diff old new).unchanged,
        lastWithKey new (ikey it) = some it)) ∧
    compute_inventory_diff []
        [⟨"Milk", "Dairy", some "2"⟩, ⟨"MILK", "dairy", some "5"⟩] =
      ⟨[⟨"MILK", "dairy", some "5"⟩], [], [], []⟩ := by
  refine ⟨dlookup_buildItems, ?_, by decide⟩
  intro old new
  refine ⟨?_, ?_, ?_, ?_⟩
  · intro it hit
    rw [← dlookup_buildItems]
    rw [diff_added_def] at hit
    obtain ⟨kv, hkv, hkv2⟩ := List.mem_map.mp hit
    obtain ⟨hmem, _⟩ := List.mem_filter.mp hkv
    rw [show it = kv.2 from hkv2.symm,
      (buildItems_invariant new).1 kv hmem]
    exact dlookup_of_mem _ (buildItems_invariant new).2 kv hmem
  · intro it hit
    rw [← dlookup_buildItems]
    rw [diff_removed_def] at hit
    obtain ⟨kv, hkv, hkv2⟩ := List.mem_map.mp hit
    obtain ⟨hmem, _⟩ := List.mem_filter.mp hkv
    rw [show it = kv.2 from hkv2.symm,
      (buildItems_invariant old).1 kv hmem]
    exact dlookup_of_mem _ (buildItems_invariant old).2 kv hmem
  · intro c hc
    rw [← dlookup_buildItems]
    rw [diff_changed_def] at hc
    obtain ⟨p, hp, hfp⟩ := List.mem_filterMap.mp hc
    obtain ⟨k0, _, hn⟩ := (mem_pairs_iff old new p).mp hp
    by_cases hq : qtyOf p.1 ≠ qtyOf p.2
    · rw [if_pos hq] at hfp
      rw [show c = ⟨p.2, qtyOf p.2 - qtyOf p.1⟩ from (Option.some_inj.mp hfp).symm]
      show dlookup (buildItems new) (ikey p.2) = some p.2
      rw [(buildItems_invariant new).1 (k0, p.2) (mem_of_dlookup _ _ _ hn)]
      exact hn
    · rw [if_neg hq] at hfp
      cases hfp
  · intro it hit
    rw [← dlookup_buildItems]
    rw [diff_unchanged_def] at hit
    obtain ⟨p, hp, hfp⟩ := List.mem_filterMap.mp hit
    obtain ⟨k0, _, hn⟩ := (mem_pairs_iff old new p).mp hp
    by_cases hq : qtyOf p.1 = qtyOf p.2
    · rw [if_pos hq] at hfp
      rw [show it = p.2 from (Option.some_inj.mp hfp).symm]
      rw [(buildItems_invariant new).1 (k0, p.2) (mem_of_dlookup _ _ _ hn)]
      exact hn
    · rw [if_neg hq] at hfp
      cases hfp

/-- Witness for C10: the duplicated-key snapshot's `added` bucket holds
the later "MILK" item, which is indeed the latest with its key. -/
theorem C10_last_write_wins_witness :
    (⟨"MILK", "dairy", some "5"⟩ : Item) ∈ (compute_inventory_diff []
      [⟨"Milk", "Dairy", some "2"⟩, ⟨"MILK", "dairy", some "5"⟩]).added ∧
    lastWithKey [⟨"Milk", "Dairy", some "2"⟩, ⟨"MILK", "dairy", some "5"⟩]
      (ikey ⟨"MILK", "dairy", some "5"⟩) = some ⟨"MILK", "dairy", some "5"⟩ :=
  ⟨by decide,
    (C10_last_write_wins.2.1 []
      [⟨"Milk", "Dairy", some "2"⟩, ⟨"MILK", "dairy", some "5"⟩]).1
      ⟨"MILK", "dairy", some "5"⟩ (by decide)⟩

end SmartFridge
